import Mathlib

/-!
# Formal model of termview (src/main.rs)

A shallow embedding of the rendering and viewport pipeline of the
`termview` terminal image viewer, together with proofs of the spec's
claims about it.

Conventions of the embedding:
* Rust `f64` arithmetic is modelled over `ℚ` (exact real-valued
  semantics of the expressions the code computes).
* the Rust cast `expr as u32` on a nonnegative finite float truncates
  toward zero and saturates below at 0; this is `rustCastU32`.
* `u32` arithmetic in the code stays within range everywhere the
  claims touch it, so `ℕ` models it; Rust `saturating_sub` is `ℕ`
  subtraction.
-/

namespace Termview

/-- Rust `expr as u32` for a nonnegative in-range value: truncation toward
zero, saturating at 0 for negative inputs. -/
def rustCastU32 (q : ℚ) : ℕ := (⌊q⌋).toNat

/-- `f64::clamp(lo, hi)`: `min (max v lo) hi`. -/
def rustClamp (v lo hi : ℚ) : ℚ := min (max v lo) hi

/-- The crop rectangle derived by the viewport model, in source-pixel
coordinates. -/
structure Crop where
  x : ℕ
  y : ℕ
  w : ℕ
  h : ℕ
  deriving Repr, DecidableEq

/-- The identity fast-path test of `App::get_view_image` (src/main.rs line
405): zoom within 0.01 of 1 and both pans within 0.01 of 0. -/
def viewIsIdentity (zoom pan_x pan_y : ℚ) : Prop :=
  |zoom - 1| < 1/100 ∧ |pan_x| < 1/100 ∧ |pan_y| < 1/100

instance (zoom pan_x pan_y : ℚ) : Decidable (viewIsIdentity zoom pan_x pan_y) :=
  inferInstanceAs (Decidable (_ ∧ _ ∧ _))

/-- `let view_w = ((w as f64 / self.zoom) as u32).max(1)` — the view window
size along one axis (src/main.rs lines 410-411; the code applies the same
formula to each axis). -/
def view_w (w : ℕ) (zoom : ℚ) : ℕ :=
  max (rustCastU32 ((w : ℚ) / zoom)) 1

/-- `let center_x = (w as f64 / 2.0 + self.pan_x * w as f64).clamp(0.0, w as f64)`
(src/main.rs lines 413-414, one axis). -/
def center_x (w : ℕ) (pan : ℚ) : ℚ :=
  rustClamp ((w : ℚ) / 2 + pan * w) 0 w

/-- `let x = (center_x - view_w as f64 / 2.0).max(0.0).min((w.saturating_sub(view_w.min(w))) as f64) as u32`
(src/main.rs lines 416-418, one axis). -/
def crop_x (w : ℕ) (zoom pan : ℚ) : ℕ :=
  rustCastU32 (min (max (center_x w pan - (view_w w zoom : ℚ) / 2) 0)
    ((w - min (view_w w zoom) w : ℕ) : ℚ))

/-- `let crop_w = view_w.min(w - x)` (src/main.rs line 423, one axis). -/
def crop_w (w : ℕ) (zoom pan : ℚ) : ℕ :=
  min (view_w w zoom) (w - crop_x w zoom pan)

/-- Embedding of `App::get_view_image` (src/main.rs lines 402-431), given the
current image's dimensions and the viewport state.  Returns the crop
rectangle the code crops the image to (the identity rectangle `⟨0,0,w,h⟩`
when the code returns the image unchanged, as on the fast path and the
degenerate-crop fallback). -/
def get_view_image (w h : ℕ) (zoom pan_x pan_y : ℚ) : Crop :=
  if viewIsIdentity zoom pan_x pan_y then
    ⟨0, 0, w, h⟩
  else if crop_w w zoom pan_x = 0 ∨ crop_w h zoom pan_y = 0 then
    ⟨0, 0, w, h⟩
  else
    ⟨crop_x w zoom pan_x, crop_x h zoom pan_y, crop_w w zoom pan_x, crop_w h zoom pan_y⟩

/-- The area of the crop rectangle selected by the viewport. -/
def cropArea (w h : ℕ) (zoom pan_x pan_y : ℚ) : ℕ :=
  (get_view_image w h zoom pan_x pan_y).w * (get_view_image w h zoom pan_x pan_y).h

lemma rustCastU32_le_of_le_natCast {q : ℚ} {n : ℕ} (h : q ≤ (n : ℚ)) :
    rustCastU32 q ≤ n := by
  unfold rustCastU32
  have h2 : ⌊q⌋ ≤ (n : ℤ) := by simpa using Int.floor_le_floor h
  exact Int.toNat_le.mpr h2

lemma one_le_view_w (w : ℕ) (zoom : ℚ) : 1 ≤ view_w w zoom :=
  le_max_right _ _

lemma crop_x_le (w : ℕ) (zoom pan : ℚ) :
    crop_x w zoom pan ≤ w - min (view_w w zoom) w :=
  rustCastU32_le_of_le_natCast (min_le_right _ _)

lemma one_le_crop_w (w : ℕ) (zoom pan : ℚ) (hw : 1 ≤ w) :
    1 ≤ crop_w w zoom pan := by
  have hvw := one_le_view_w w zoom
  have hx := crop_x_le w zoom pan
  unfold crop_w
  omega

lemma crop_x_add_crop_w_le (w : ℕ) (zoom pan : ℚ) :
    crop_x w zoom pan + crop_w w zoom pan ≤ w := by
  have hx := crop_x_le w zoom pan
  unfold crop_w
  omega

/-- For images of positive size, the crop width is `min view_w w` — the pan
offset never shrinks it (the top-left clamp guarantees enough room). -/
lemma crop_w_eq_min (w : ℕ) (zoom pan : ℚ) (hw : 1 ≤ w) :
    crop_w w zoom pan = min (view_w w zoom) w := by
  have hx := crop_x_le w zoom pan
  have hvw := one_le_view_w w zoom
  unfold crop_w
  omega

/-- *C1, Crop containment*: for every image with width ≥ 1 and height ≥ 1,
every zoom in [0.1, 10.0], and every pan in [-5, 5]², the crop rectangle
computed by `get_view_image` satisfies `0 ≤ x`, `0 ≤ y`, `x + w ≤ image_w`,
`y + h ≤ image_h`, `w ≥ 1`, `h ≥ 1`. -/
theorem crop_containment (w h : ℕ) (zoom pan_x pan_y : ℚ)
    (hw : 1 ≤ w) (hh : 1 ≤ h)
    (hz1 : 1/10 ≤ zoom) (hz2 : zoom ≤ 10)
    (hpx : |pan_x| ≤ 5) (hpy : |pan_y| ≤ 5) :
    0 ≤ (get_view_image w h zoom pan_x pan_y).x ∧
    0 ≤ (get_view_image w h zoom pan_x pan_y).y ∧
    (get_view_image w h zoom pan_x pan_y).x + (get_view_image w h zoom pan_x pan_y).w ≤ w ∧
    (get_view_image w h zoom pan_x pan_y).y + (get_view_image w h zoom pan_x pan_y).h ≤ h ∧
    1 ≤ (get_view_image w h zoom pan_x pan_y).w ∧
    1 ≤ (get_view_image w h zoom pan_x pan_y).h := by
  unfold get_view_image
  split
  · exact ⟨Nat.zero_le _, Nat.zero_le _, by simp, by simp, hw, hh⟩
  · split
    · exact ⟨Nat.zero_le _, Nat.zero_le _, by simp, by simp, hw, hh⟩
    · exact ⟨Nat.zero_le _, Nat.zero_le _,
        crop_x_add_crop_w_le w zoom pan_x, crop_x_add_crop_w_le h zoom pan_y,
        one_le_crop_w w zoom pan_x hw, one_le_crop_w h zoom pan_y hh⟩

/-- Witness for `crop_containment` at image 100×50, zoom 2, pan (0,0). -/
theorem crop_containment_witness :
    0 ≤ (get_view_image 100 50 2 0 0).x ∧
    0 ≤ (get_view_image 100 50 2 0 0).y ∧
    (get_view_image 100 50 2 0 0).x + (get_view_image 100 50 2 0 0).w ≤ 100 ∧
    (get_view_image 100 50 2 0 0).y + (get_view_image 100 50 2 0 0).h ≤ 50 ∧
    1 ≤ (get_view_image 100 50 2 0 0).w ∧
    1 ≤ (get_view_image 100 50 2 0 0).h :=
  crop_containment 100 50 2 0 0 (by norm_num) (by norm_num) (by norm_num)
    (by norm_num) (by norm_num) (by norm_num)

/-- *C3, Identity fast path*: for every image with dimensions ≥ 1×1, when
`|zoom - 1| < 0.01`, `|pan_x| < 0.01`, `|pan_y| < 0.01`, `get_view_image`
returns the whole image (the identity rectangle, no crop applied). -/
theorem identity_fast_path (w h : ℕ) (zoom pan_x pan_y : ℚ)
    (hw : 1 ≤ w) (hh : 1 ≤ h)
    (hz : |zoom - 1| < 1/100) (hx : |pan_x| < 1/100) (hy : |pan_y| < 1/100) :
    get_view_image w h zoom pan_x pan_y = ⟨0, 0, w, h⟩ := by
  unfold get_view_image
  rw [if_pos ⟨hz, hx, hy⟩]

/-- Witness for `identity_fast_path` at image 7×5, zoom 1, pan (0,0). -/
theorem identity_fast_path_witness :
    get_view_image 7 5 1 0 0 = ⟨0, 0, 7, 5⟩ :=
  identity_fast_path 7 5 1 0 0 (by norm_num) (by norm_num) (by norm_num)
    (by norm_num) (by norm_num)

lemma rustCastU32_mono {q1 q2 : ℚ} (h : q1 ≤ q2) :
    rustCastU32 q1 ≤ rustCastU32 q2 := by
  unfold rustCastU32
  have := Int.floor_le_floor h
  omega

lemma nat_le_rustCastU32 {n : ℕ} {q : ℚ} (h : (n : ℚ) ≤ q) :
    n ≤ rustCastU32 q := by
  unfold rustCastU32
  have : (n : ℤ) ≤ ⌊q⌋ := Int.le_floor.mpr (by exact_mod_cast h)
  omega

lemma view_w_antitone (w : ℕ) {z1 z2 : ℚ} (h0 : 0 < z1) (h : z1 ≤ z2) :
    view_w w z2 ≤ view_w w z1 := by
  unfold view_w
  have hdiv : (w : ℚ) / z2 ≤ (w : ℚ) / z1 := by
    gcongr
  exact max_le_max (rustCastU32_mono hdiv) le_rfl

lemma le_view_w_of_le_one (w : ℕ) {z : ℚ} (h0 : 0 < z) (h1 : z ≤ 1) :
    w ≤ view_w w z := by
  unfold view_w
  refine le_max_of_le_left (nat_le_rustCastU32 ?_)
  rw [le_div_iff₀ h0]
  calc (w : ℚ) * z ≤ (w : ℚ) * 1 := by
        exact mul_le_mul_of_nonneg_left h1 (Nat.cast_nonneg w)
  _ = w := mul_one _

/-- The crop area in closed form: the full image on the identity fast path,
and `min view_w w * min view_h h` otherwise (for a positive-size image the
degenerate-crop fallback is never taken). -/
lemma cropArea_eq (w h : ℕ) (zoom pan_x pan_y : ℚ) (hw : 1 ≤ w) (hh : 1 ≤ h) :
    cropArea w h zoom pan_x pan_y =
      if viewIsIdentity zoom pan_x pan_y then w * h
      else min (view_w w zoom) w * min (view_w h zoom) h := by
  unfold cropArea get_view_image
  split
  · simp
  · have h1 := one_le_crop_w w zoom pan_x hw
    have h2 := one_le_crop_w h zoom pan_y hh
    rw [if_neg (by omega)]
    simp [crop_w_eq_min w zoom pan_x hw, crop_w_eq_min h zoom pan_y hh]

/-- *C8, Zoom monotonicity*: for a fixed image and fixed pan, increasing the
zoom within [0.1, 10.0] never increases the area of the crop rectangle
computed by `get_view_image`. -/
theorem zoom_area_antitone (w h : ℕ) (z1 z2 pan_x pan_y : ℚ)
    (hw : 1 ≤ w) (hh : 1 ≤ h)
    (hz1 : 1/10 ≤ z1) (hle : z1 ≤ z2) (hz2 : z2 ≤ 10) :
    cropArea w h z2 pan_x pan_y ≤ cropArea w h z1 pan_x pan_y := by
  have h0 : (0 : ℚ) < z1 := lt_of_lt_of_le (by norm_num) hz1
  rw [cropArea_eq w h z1 pan_x pan_y hw hh, cropArea_eq w h z2 pan_x pan_y hw hh]
  by_cases hid1 : viewIsIdentity z1 pan_x pan_y <;>
    by_cases hid2 : viewIsIdentity z2 pan_x pan_y
  · rw [if_pos hid1, if_pos hid2]
  · rw [if_pos hid1, if_neg hid2]
    exact Nat.mul_le_mul (min_le_right _ _) (min_le_right _ _)
  · -- z2 is inside the fast-path window but z1 is not, so z1 < 1 and the
    -- non-fast-path area at z1 is already the whole image.
    rw [if_neg hid1, if_pos hid2]
    obtain ⟨hz2near, hpx, hpy⟩ := hid2
    have hz1far : ¬ |z1 - 1| < 1/100 := fun hc => hid1 ⟨hc, hpx, hpy⟩
    have hz1lt : z1 ≤ 1 := by
      rw [abs_lt] at hz2near
      have habs : 1/100 ≤ |z1 - 1| := not_lt.mp hz1far
      rcases le_abs.mp habs with h' | h'
      · linarith [hz2near.2]
      · linarith
    have hww : w ≤ view_w w z1 := le_view_w_of_le_one w h0 hz1lt
    have hwh : h ≤ view_w h z1 := le_view_w_of_le_one h h0 hz1lt
    rw [min_eq_right hww, min_eq_right hwh]
  · rw [if_neg hid1, if_neg hid2]
    have hvw := view_w_antitone w h0 hle
    have hvh := view_w_antitone h h0 hle
    exact Nat.mul_le_mul (min_le_min hvw le_rfl) (min_le_min hvh le_rfl)

/-! ## Kitty graphics protocol renderer (`kitty_display`, src/main.rs 79-142) -/

/-- `let scale = scale_x.min(scale_y).min(1.0)` where
`scale_x = avail_px_w / img_w`, `scale_y = avail_px_h / img_h`
(src/main.rs lines 93-95).  `availW = cols * cell_width_px`,
`availH = rows * cell_height_px` (lines 87-88). -/
def kitty_scale (availW availH imgW imgH : ℕ) : ℚ :=
  min (min ((availW : ℚ) / imgW) ((availH : ℚ) / imgH)) 1

/-- `let disp_w = ((img_w as f64 * scale) as u32).max(1)` (src/main.rs
line 97). -/
def kitty_disp_w (availW availH imgW imgH : ℕ) : ℕ :=
  max (rustCastU32 ((imgW : ℚ) * kitty_scale availW availH imgW imgH)) 1

/-- `let disp_h = ((img_h as f64 * scale) as u32).max(1)` (src/main.rs
line 98). -/
def kitty_disp_h (availW availH imgW imgH : ℕ) : ℕ :=
  max (rustCastU32 ((imgH : ℚ) * kitty_scale availW availH imgW imgH)) 1

/-- Rounding to the nearest integer (half away from zero on the
nonnegative values used here), as the spec's word "round" denotes.
Deliberately follows the spec, not the source, to compare the two. -/
def specRound (q : ℚ) : ℤ := ⌊q + 1/2⌋

/-- The display width as the spec's words state it: `round(img_w*scale)`
floored to at least 1.  Deliberately follows the spec, not the source. -/
def spec_disp_w (availW availH imgW imgH : ℕ) : ℕ :=
  max (specRound ((imgW : ℚ) * kitty_scale availW availH imgW imgH)).toNat 1

/-- Rust's `slice::chunks(n)`: splits into consecutive chunks of `n`
elements, the last chunk possibly shorter, no chunks for an empty slice.
(`n = 0` panics in Rust and is never used; the value returned for it here
is irrelevant.) -/
def chunksOf (n : ℕ) : List α → List (List α)
  | [] => []
  | a :: l =>
    if _h : n = 0 then [a :: l]
    else (a :: l).take n :: chunksOf n ((a :: l).drop n)
  termination_by l => l.length
  decreasing_by simp; omega

/-- One kitty graphics control command of the chunk loop (src/main.rs
lines 124-139): whether it is the `a=T` transmit-and-display command, the
optional `f=`/`s=`/`v=` metadata, the `m=` more-data flag, and the payload
chunk. -/
structure KittyCmd where
  transmit : Bool
  f : Option ℕ
  s : Option ℕ
  v : Option ℕ
  m : ℕ
  payload : List Char
  deriving Repr, DecidableEq

/-- The chunk-emission loop of `kitty_display` (src/main.rs lines 124-139):
`is_first` selects the metadata-carrying form, `is_last` selects `m=0`. -/
def kittyCmdsAux (dispW dispH : ℕ) : Bool → List (List Char) → List KittyCmd
  | _, [] => []
  | isFirst, [c] =>
    [⟨isFirst, if isFirst then some 32 else none, if isFirst then some dispW else none,
      if isFirst then some dispH else none, 0, c⟩]
  | isFirst, c :: c2 :: rest =>
    ⟨isFirst, if isFirst then some 32 else none, if isFirst then some dispW else none,
      if isFirst then some dispH else none, 1, c⟩ ::
      kittyCmdsAux dispW dispH false (c2 :: rest)

/-- The sequence of kitty protocol commands `kitty_display` emits for a
base64-encoded payload `b64` (src/main.rs lines 119-139): the payload is
split into 4096-byte chunks and each chunk becomes one command, the first
carrying `a=T,f=32,s=disp_w,v=disp_h`. -/
def kitty_display_cmds (dispW dispH : ℕ) (b64 : List Char) : List KittyCmd :=
  kittyCmdsAux dispW dispH true (chunksOf 4096 b64)

lemma chunksOf_nil (n : ℕ) : chunksOf n ([] : List α) = [] := by
  rw [chunksOf]

lemma chunksOf_cons {n : ℕ} (hn : 0 < n) (a : α) (l : List α) :
    chunksOf n (a :: l) = (a :: l).take n :: chunksOf n ((a :: l).drop n) := by
  rw [chunksOf, dif_neg (by omega)]

lemma chunksOf_length {n : ℕ} (hn : 0 < n) (k : ℕ) :
    ∀ l : List α, l.length = n * k → (chunksOf n l).length = k := by
  induction k with
  | zero =>
    intro l hl
    have : l = [] := List.eq_nil_of_length_eq_zero (by omega)
    subst this
    rw [chunksOf_nil, List.length_nil]
  | succ k ih =>
    intro l hl
    rw [Nat.mul_succ] at hl
    cases l with
    | nil => simp at hl; omega
    | cons a t =>
      rw [chunksOf_cons hn, List.length_cons, ih ((a :: t).drop n) ?_]
      simp only [List.length_cons] at hl
      simp only [List.length_drop, List.length_cons]
      omega

lemma chunksOf_join {n : ℕ} (hn : 0 < n) (l : List α) :
    (chunksOf n l).join = l := by
  have key : ∀ (m : ℕ) (l : List α), l.length ≤ m → (chunksOf n l).join = l := by
    intro m
    induction m with
    | zero =>
      intro l hl
      have : l = [] := List.eq_nil_of_length_eq_zero (by omega)
      subst this
      rw [chunksOf_nil]
      rfl
    | succ m ih =>
      intro l hl
      cases l with
      | nil => rw [chunksOf_nil]; rfl
      | cons a t =>
        rw [chunksOf_cons hn]
        have hrec := ih ((a :: t).drop n) (by
          simp only [List.length_cons] at hl
          simp only [List.length_drop, List.length_cons]
          omega)
        calc ((a :: t).take n :: chunksOf n ((a :: t).drop n)).join
            = (a :: t).take n ++ (chunksOf n ((a :: t).drop n)).join := rfl
        _ = (a :: t).take n ++ (a :: t).drop n := by rw [hrec]
        _ = a :: t := List.take_append_drop n (a :: t)
  exact key l.length l le_rfl

lemma kittyCmdsAux_length (dw dh : ℕ) (b : Bool) (cs : List (List Char)) :
    (kittyCmdsAux dw dh b cs).length = cs.length := by
  induction cs generalizing b with
  | nil => rfl
  | cons c rest ih =>
    cases rest with
    | nil => rfl
    | cons c2 r2 => simpa [kittyCmdsAux] using ih false

lemma kittyCmdsAux_payload (dw dh : ℕ) (b : Bool) (cs : List (List Char)) :
    (kittyCmdsAux dw dh b cs).map KittyCmd.payload = cs := by
  induction cs generalizing b with
  | nil => rfl
  | cons c rest ih =>
    cases rest with
    | nil => rfl
    | cons c2 r2 => simpa [kittyCmdsAux] using ih false

lemma kittyCmdsAux_ne_nil (dw dh : ℕ) (b : Bool) (c : List Char)
    (rest : List (List Char)) : kittyCmdsAux dw dh b (c :: rest) ≠ [] := by
  intro hc
  have := kittyCmdsAux_length dw dh b (c :: rest)
  rw [hc] at this
  simp at this

lemma kittyCmdsAux_dropLast_m (dw dh : ℕ) (b : Bool) (cs : List (List Char)) :
    ∀ cmd ∈ (kittyCmdsAux dw dh b cs).dropLast, cmd.m = 1 := by
  induction cs generalizing b with
  | nil => intro cmd hmem; simp [kittyCmdsAux] at hmem
  | cons c rest ih =>
    cases rest with
    | nil => intro cmd hmem; simp [kittyCmdsAux] at hmem
    | cons c2 r2 =>
      intro cmd hmem
      rw [show kittyCmdsAux dw dh b (c :: c2 :: r2) =
        ⟨b, if b then some 32 else none, if b then some dw else none,
          if b then some dh else none, 1, c⟩ ::
          kittyCmdsAux dw dh false (c2 :: r2) from rfl] at hmem
      cases r2 with
      | nil => simp [kittyCmdsAux] at hmem; rw [hmem]
      | cons c3 r3 =>
        rw [show kittyCmdsAux dw dh false (c2 :: c3 :: r3) =
          ⟨false, none, none, none, 1, c2⟩ :: kittyCmdsAux dw dh false (c3 :: r3)
          from rfl, List.dropLast_cons₂] at hmem
        rcases List.mem_cons.mp hmem with hcmd | hmem2
        · rw [hcmd]
        · exact ih false cmd hmem2

lemma kittyCmdsAux_getLast_m (dw dh : ℕ) (b : Bool) (c : List Char)
    (rest : List (List Char)) :
    (kittyCmdsAux dw dh b (c :: rest)).getLast?.map KittyCmd.m = some 0 := by
  induction rest generalizing b c with
  | nil => rfl
  | cons c2 r2 ih =>
    rw [show kittyCmdsAux dw dh b (c :: c2 :: r2) =
      ⟨b, if b then some 32 else none, if b then some dw else none,
        if b then some dh else none, 1, c⟩ ::
        kittyCmdsAux dw dh false (c2 :: r2) from rfl]
    cases hres : kittyCmdsAux dw dh false (c2 :: r2) with
    | nil => exact absurd hres (kittyCmdsAux_ne_nil dw dh false c2 r2)
    | cons x xs =>
      rw [List.getLast?_cons_cons]
      rw [← hres, ih false c2]

lemma kittyCmdsAux_false_no_meta (dw dh : ℕ) (cs : List (List Char)) :
    ∀ cmd ∈ kittyCmdsAux dw dh false cs,
      cmd.transmit = false ∧ cmd.f = none ∧ cmd.s = none ∧ cmd.v = none := by
  induction cs with
  | nil => intro cmd hmem; simp [kittyCmdsAux] at hmem
  | cons c rest ih =>
    cases rest with
    | nil =>
      intro cmd hmem
      simp [kittyCmdsAux] at hmem
      rw [hmem]
      exact ⟨rfl, rfl, rfl, rfl⟩
    | cons c2 r2 =>
      intro cmd hmem
      rw [show kittyCmdsAux dw dh false (c :: c2 :: r2) =
        ⟨false, none, none, none, 1, c⟩ :: kittyCmdsAux dw dh false (c2 :: r2)
        from rfl] at hmem
      rcases List.mem_cons.mp hmem with hcmd | hmem2
      · rw [hcmd]; exact ⟨rfl, rfl, rfl, rfl⟩
      · exact ih cmd hmem2

lemma kittyCmdsAux_tail (dw dh : ℕ) (b : Bool) (cs : List (List Char)) :
    (kittyCmdsAux dw dh b cs).tail = kittyCmdsAux dw dh false cs.tail := by
  cases cs with
  | nil => rfl
  | cons c rest => cases rest with
    | nil => rfl
    | cons c2 r2 => rfl

lemma kittyCmdsAux_head (dw dh : ℕ) (c : List Char) (rest : List (List Char)) :
    (kittyCmdsAux dw dh true (c :: rest)).head?.map
      (fun cmd => (cmd.transmit, cmd.f, cmd.s, cmd.v)) =
      some (true, some 32, some dw, some dh) := by
  cases rest with
  | nil => rfl
  | cons c2 r2 => rfl

/-- Witness for `zoom_area_antitone`: image 100×50, pan (0,0), zoom 2 vs 4. -/
theorem zoom_area_antitone_witness :
    cropArea 100 50 4 0 0 ≤ cropArea 100 50 2 0 0 :=
  zoom_area_antitone 100 50 2 4 0 0 (by norm_num) (by norm_num) (by norm_num)
    (by norm_num) (by norm_num)

/-- *C2, Chunk framing*: for every payload whose base64 encoding is exactly
`4096*k` bytes (`k ≥ 1`), `kitty_display` emits exactly `k` protocol
commands in sequence order; the first carries the size metadata
(`f=32, s=width, v=height`) and no other does; every command except the
last carries `m=1` and exactly the last carries `m=0`. -/
theorem chunk_framing (dispW dispH k : ℕ) (b64 : List Char)
    (hk : 1 ≤ k) (hlen : b64.length = 4096 * k) :
    (kitty_display_cmds dispW dispH b64).length = k ∧
    (kitty_display_cmds dispW dispH b64).head?.map
      (fun cmd => (cmd.transmit, cmd.f, cmd.s, cmd.v)) =
      some (true, some 32, some dispW, some dispH) ∧
    (∀ cmd ∈ (kitty_display_cmds dispW dispH b64).dropLast, cmd.m = 1) ∧
    (kitty_display_cmds dispW dispH b64).getLast?.map KittyCmd.m = some 0 ∧
    (∀ cmd ∈ (kitty_display_cmds dispW dispH b64).tail,
      cmd.transmit = false ∧ cmd.f = none ∧ cmd.s = none ∧ cmd.v = none) ∧
    ((kitty_display_cmds dispW dispH b64).map KittyCmd.payload).join = b64 := by
  have h4096 : (0 : ℕ) < 4096 := by norm_num
  have hclen : (chunksOf 4096 b64).length = k := chunksOf_length h4096 k b64 hlen
  obtain ⟨c, rest, hc⟩ : ∃ c rest, chunksOf 4096 b64 = c :: rest := by
    cases hcs : chunksOf 4096 b64 with
    | nil => rw [hcs] at hclen; simp at hclen; omega
    | cons c rest => exact ⟨c, rest, rfl⟩
  unfold kitty_display_cmds
  refine ⟨?_, ?_, ?_, ?_, ?_, ?_⟩
  · rw [kittyCmdsAux_length, hclen]
  · rw [hc]
    exact kittyCmdsAux_head dispW dispH c rest
  · exact kittyCmdsAux_dropLast_m dispW dispH true (chunksOf 4096 b64)
  · rw [hc]
    exact kittyCmdsAux_getLast_m dispW dispH true c rest
  · intro cmd hmem
    rw [kittyCmdsAux_tail] at hmem
    exact kittyCmdsAux_false_no_meta dispW dispH _ cmd hmem
  · rw [kittyCmdsAux_payload]
    exact chunksOf_join h4096 b64

/-- Witness for `chunk_framing` at a 4096-byte payload (`k = 1`). -/
theorem chunk_framing_witness :
    (kitty_display_cmds 32 32 (List.replicate 4096 'A')).length = 1 ∧
    (kitty_display_cmds 32 32 (List.replicate 4096 'A')).head?.map
      (fun cmd => (cmd.transmit, cmd.f, cmd.s, cmd.v)) =
      some (true, some 32, some 32, some 32) ∧
    (∀ cmd ∈ (kitty_display_cmds 32 32 (List.replicate 4096 'A')).dropLast, cmd.m = 1) ∧
    (kitty_display_cmds 32 32 (List.replicate 4096 'A')).getLast?.map KittyCmd.m = some 0 ∧
    (∀ cmd ∈ (kitty_display_cmds 32 32 (List.replicate 4096 'A')).tail,
      cmd.transmit = false ∧ cmd.f = none ∧ cmd.s = none ∧ cmd.v = none) ∧
    ((kitty_display_cmds 32 32 (List.replicate 4096 'A')).map KittyCmd.payload).join =
      List.replicate 4096 'A' :=
  chunk_framing 32 32 1 (List.replicate 4096 'A') (by norm_num)
    (by rw [List.length_replicate, Nat.mul_one])

/-! ## C4: native-path scaling -/

lemma kitty_scale_le_one (availW availH imgW imgH : ℕ) :
    kitty_scale availW availH imgW imgH ≤ 1 :=
  min_le_right _ _

lemma kitty_disp_w_le (availW availH imgW imgH : ℕ) (hW : 1 ≤ imgW) :
    kitty_disp_w availW availH imgW imgH ≤ imgW := by
  unfold kitty_disp_w
  have hle : (imgW : ℚ) * kitty_scale availW availH imgW imgH ≤ (imgW : ℚ) := by
    calc (imgW : ℚ) * kitty_scale availW availH imgW imgH
        ≤ (imgW : ℚ) * 1 :=
          mul_le_mul_of_nonneg_left (kitty_scale_le_one _ _ _ _) (Nat.cast_nonneg _)
    _ = imgW := mul_one _
  have := rustCastU32_le_of_le_natCast hle
  omega

lemma kitty_disp_h_le (availW availH imgW imgH : ℕ) (hH : 1 ≤ imgH) :
    kitty_disp_h availW availH imgW imgH ≤ imgH := by
  unfold kitty_disp_h
  have hle : (imgH : ℚ) * kitty_scale availW availH imgW imgH ≤ (imgH : ℚ) := by
    calc (imgH : ℚ) * kitty_scale availW availH imgW imgH
        ≤ (imgH : ℚ) * 1 :=
          mul_le_mul_of_nonneg_left (kitty_scale_le_one _ _ _ _) (Nat.cast_nonneg _)
    _ = imgH := mul_one _
  have := rustCastU32_le_of_le_natCast hle
  omega

/-- *C4 counterexample*: at a 3×2 image on a 2×1-pixel canvas the uniform
scale is 1/2, the code's display width (truncation) is 1, but the claim's
`round(img_w*scale) = round(1.5) = 2`.  So the claim's "round" is false of
the code. -/
theorem native_scaling_round_counterexample :
    kitty_scale 2 1 3 2 = 1/2 ∧
    kitty_disp_w 2 1 3 2 = 1 ∧
    spec_disp_w 2 1 3 2 = 2 ∧
    kitty_disp_w 2 1 3 2 ≠ spec_disp_w 2 1 3 2 := by
  have hs : kitty_scale 2 1 3 2 = 1/2 := by
    unfold kitty_scale
    rw [min_eq_left, min_eq_right] <;> norm_num
  refine ⟨hs, ?_, ?_, ?_⟩
  · unfold kitty_disp_w rustCastU32
    rw [hs]
    norm_num
  · unfold spec_disp_w specRound
    rw [hs]
    norm_num
    decide
  · unfold spec_disp_w specRound kitty_disp_w rustCastU32
    rw [hs]
    norm_num
    decide

/-- *C4 as amended*: `kitty_display` uses the single uniform scale factor
`min(avail_w/img_w, avail_h/img_h, 1.0)` — never upscaling — and the
displayed dimensions are `disp_w = trunc(img_w*scale)` and
`disp_h = trunc(img_h*scale)` (truncation toward zero, not rounding to
nearest), each floored to at least 1 and bounded by the image size. -/
theorem native_scaling (availW availH imgW imgH : ℕ)
    (hW : 1 ≤ imgW) (hH : 1 ≤ imgH) :
    kitty_scale availW availH imgW imgH ≤ 1 ∧
    kitty_disp_w availW availH imgW imgH =
      max (⌊(imgW : ℚ) * kitty_scale availW availH imgW imgH⌋).toNat 1 ∧
    kitty_disp_h availW availH imgW imgH =
      max (⌊(imgH : ℚ) * kitty_scale availW availH imgW imgH⌋).toNat 1 ∧
    1 ≤ kitty_disp_w availW availH imgW imgH ∧
    1 ≤ kitty_disp_h availW availH imgW imgH ∧
    kitty_disp_w availW availH imgW imgH ≤ imgW ∧
    kitty_disp_h availW availH imgW imgH ≤ imgH :=
  ⟨kitty_scale_le_one _ _ _ _, rfl, rfl, le_max_right _ _, le_max_right _ _,
    kitty_disp_w_le _ _ _ _ hW, kitty_disp_h_le _ _ _ _ hH⟩

/-- Witness for `native_scaling` at the counterexample's geometry. -/
theorem native_scaling_witness :
    kitty_scale 2 1 3 2 ≤ 1 ∧
    kitty_disp_w 2 1 3 2 = max (⌊(3 : ℚ) * kitty_scale 2 1 3 2⌋).toNat 1 ∧
    kitty_disp_h 2 1 3 2 = max (⌊(2 : ℚ) * kitty_scale 2 1 3 2⌋).toNat 1 ∧
    1 ≤ kitty_disp_w 2 1 3 2 ∧
    1 ≤ kitty_disp_h 2 1 3 2 ∧
    kitty_disp_w 2 1 3 2 ≤ 3 ∧
    kitty_disp_h 2 1 3 2 ≤ 2 :=
  native_scaling 2 1 3 2 (by norm_num) (by norm_num)

/-! ## Status bar (`draw_status_bar`, src/main.rs 189-218)

The model records the characters written to the row (cursor moves and
color codes aside); strings are byte lists, written as `List Char`
(ASCII). -/

/-- Embedding of `draw_status_bar` (src/main.rs lines 203-209):
`left_len = left.len().min(cols)`, `right_len = right.len().min(cols)`,
`pad = cols.saturating_sub(left_len + right_len)`, then the left slice,
`pad` spaces, and the right slice are written. -/
def draw_status_bar (cols : ℕ) (left right : List Char) : List Char :=
  let leftLen := min left.length cols
  let rightLen := min right.length cols
  let pad := cols - (leftLen + rightLen)
  left.take leftLen ++ List.replicate pad ' ' ++ right.take rightLen

/-- *C5 refutation*: with `cols = 10` and two 6-character segments,
`draw_status_bar` writes 12 characters — more than the 10 columns the
claim says the output fits in (the code truncates each segment to `cols`
separately, never jointly). -/
theorem status_bar_overflow :
    (draw_status_bar 10 (List.replicate 6 'a') (List.replicate 6 'b')).length = 12 ∧
    10 < (draw_status_bar 10 (List.replicate 6 'a') (List.replicate 6 'b')).length := by
  decide

/-! ## Viewer state machine (`App`, src/main.rs 281-432) -/

/-- A decoded image: dimensions only (the pixel buffer plays no role in the
state-machine claims). -/
structure Image where
  w : ℕ
  h : ℕ
  deriving Repr, DecidableEq

/-- The `App` struct (src/main.rs lines 281-290).  Paths are abstract
strings; `zoom`/`pan` are the `f64` fields over `ℚ`. -/
structure App where
  images : List String
  index : ℕ
  current_image : Option Image
  error_message : Option String
  show_help : Bool
  zoom : ℚ
  pan_x : ℚ
  pan_y : ℚ

/-- `App::load_current` (src/main.rs lines 308-328).  `decode` is the
oracle for `image::open`: `some img` on success, `none` on failure. -/
def App.load_current (decode : String → Option Image) (a : App) : App :=
  let a := { a with error_message := none, zoom := 1, pan_x := 0, pan_y := 0 }
  if a.images.isEmpty then
    { a with current_image := none,
             error_message := some "No images found in directory" }
  else
    let path := a.images.getD a.index ""
    match decode path with
    | some img => { a with current_image := some img }
    | none => { a with current_image := none,
                       error_message := some ("Failed to load " ++ path) }

/-- `App::new` (src/main.rs lines 293-306). -/
def App.new (decode : String → Option Image) (images : List String)
    (start_index : ℕ) : App :=
  App.load_current decode
    { images := images, index := start_index, current_image := none,
      error_message := none, show_help := false, zoom := 1, pan_x := 0, pan_y := 0 }

/-- `App::next` (src/main.rs lines 330-335). -/
def App.next (decode : String → Option Image) (a : App) : App :=
  if a.images.isEmpty then a
  else App.load_current decode { a with index := (a.index + 1) % a.images.length }

/-- `App::prev` (src/main.rs lines 337-346). -/
def App.prev (decode : String → Option Image) (a : App) : App :=
  if a.images.isEmpty then a
  else App.load_current decode
    { a with index := if a.index = 0 then a.images.length - 1 else a.index - 1 }

/-- `App::first` (src/main.rs lines 348-353). -/
def App.first (decode : String → Option Image) (a : App) : App :=
  if a.images.isEmpty then a
  else App.load_current decode { a with index := 0 }

/-- `App::last` (src/main.rs lines 355-360). -/
def App.last (decode : String → Option Image) (a : App) : App :=
  if a.images.isEmpty then a
  else App.load_current decode { a with index := a.images.length - 1 }

/-- `App::zoom_in` (src/main.rs lines 362-364): `zoom = (zoom*1.25).min(10.0)`. -/
def App.zoom_in (a : App) : App :=
  { a with zoom := min (a.zoom * (5/4)) 10 }

/-- `App::zoom_out` (src/main.rs lines 366-368): `zoom = (zoom/1.25).max(0.1)`. -/
def App.zoom_out (a : App) : App :=
  { a with zoom := max (a.zoom / (5/4)) (1/10) }

/-- `App::zoom_reset` (src/main.rs lines 370-374). -/
def App.zoom_reset (a : App) : App :=
  { a with zoom := 1, pan_x := 0, pan_y := 0 }

/-- `App::pan` (src/main.rs lines 376-379). -/
def App.pan (dx dy : ℚ) (a : App) : App :=
  { a with pan_x := a.pan_x + dx, pan_y := a.pan_y + dy }

/-- The `?` key handler (src/main.rs line 576): flips `show_help`. -/
def App.toggle_help (a : App) : App :=
  { a with show_help := !a.show_help }

/-- One state-machine transition: the navigation, zoom, pan and help
commands the event loop dispatches (src/main.rs lines 561-576). -/
inductive Step (decode : String → Option Image) : App → App → Prop
  | next (a : App) : Step decode a (App.next decode a)
  | prev (a : App) : Step decode a (App.prev decode a)
  | first (a : App) : Step decode a (App.first decode a)
  | last (a : App) : Step decode a (App.last decode a)
  | zoom_in (a : App) : Step decode a (App.zoom_in a)
  | zoom_out (a : App) : Step decode a (App.zoom_out a)
  | zoom_reset (a : App) : Step decode a (App.zoom_reset a)
  | pan (a : App) (dx dy : ℚ) : Step decode a (App.pan dx dy a)
  | toggle_help (a : App) : Step decode a (App.toggle_help a)

/-- States reachable from a given state by transitions. -/
def Reachable (decode : String → Option Image) : App → App → Prop :=
  Relation.ReflTransGen (Step decode)

lemma App.load_current_zoom (decode : String → Option Image) (a : App) :
    (App.load_current decode a).zoom = 1 := by
  unfold App.load_current
  dsimp only
  split
  · rfl
  · split <;> rfl

lemma App.new_zoom (decode : String → Option Image) (images : List String)
    (start : ℕ) : (App.new decode images start).zoom = 1 :=
  App.load_current_zoom decode _

lemma App.zoom_in_zoom (a : App) :
    (App.zoom_in a).zoom = min (a.zoom * (5/4)) 10 := rfl

/-- Every transition keeps zoom within `[1/10, 10]`. -/
lemma Step.zoom_bounds {decode : String → Option Image} {a b : App}
    (hs : Step decode a b) (h1 : 1/10 ≤ a.zoom) (h2 : a.zoom ≤ 10) :
    1/10 ≤ b.zoom ∧ b.zoom ≤ 10 := by
  cases hs with
  | next =>
    unfold App.next
    split
    · exact ⟨h1, h2⟩
    · rw [App.load_current_zoom]; norm_num
  | prev =>
    unfold App.prev
    split
    · exact ⟨h1, h2⟩
    · rw [App.load_current_zoom]; norm_num
  | first =>
    unfold App.first
    split
    · exact ⟨h1, h2⟩
    · rw [App.load_current_zoom]; norm_num
  | last =>
    unfold App.last
    split
    · exact ⟨h1, h2⟩
    · rw [App.load_current_zoom]; norm_num
  | zoom_in =>
    rw [App.zoom_in_zoom]
    constructor
    · exact le_min (by linarith) (by norm_num)
    · exact min_le_right _ _
  | zoom_out =>
    show 1/10 ≤ max (a.zoom / (5/4)) (1/10) ∧ max (a.zoom / (5/4)) (1/10) ≤ 10
    constructor
    · exact le_max_right _ _
    · refine max_le ?_ (by norm_num)
      rw [div_le_iff₀ (by norm_num)]
      linarith
  | zoom_reset =>
    show (1 : ℚ)/10 ≤ 1 ∧ (1 : ℚ) ≤ 10
    norm_num
  | pan dx dy => exact ⟨h1, h2⟩
  | toggle_help => exact ⟨h1, h2⟩

lemma App.zoom_in_iterate_zoom (n : ℕ) (a : App) :
    (App.zoom_in^[n] a).zoom = (fun z : ℚ => min (z * (5/4)) 10)^[n] a.zoom := by
  induction n with
  | zero => rfl
  | succ n ih =>
    rw [Function.iterate_succ_apply', Function.iterate_succ_apply', ← ih]
    rfl

/-- *C6, Zoom invariant*: in every `App` state reachable from the initial
state, zoom lies in `[0.1, 10.0]`; one `zoom_in` from the default yields
exactly 1.25, and twenty `zoom_in` applications yield exactly 10.0, not
above. -/
theorem zoom_invariant :
    (∀ (decode : String → Option Image) (images : List String) (start : ℕ)
      (a : App), Reachable decode (App.new decode images start) a →
      1/10 ≤ a.zoom ∧ a.zoom ≤ 10) ∧
    (∀ a : App, a.zoom = 1 → (App.zoom_in a).zoom = 5/4) ∧
    (∀ (decode : String → Option Image) (images : List String) (start : ℕ),
      (App.zoom_in^[20] (App.new decode images start)).zoom = 10) := by
  refine ⟨?_, ?_, ?_⟩
  · intro decode images start a h
    induction h with
    | refl =>
      rw [App.new_zoom]
      norm_num
    | tail _hsteps hstep ih => exact hstep.zoom_bounds ih.1 ih.2
  · intro a ha
    rw [App.zoom_in_zoom, ha]
    norm_num
  · intro decode images start
    rw [App.zoom_in_iterate_zoom, App.new_zoom]
    norm_num [Function.iterate_succ_apply', min_def]

/-- Witness for `zoom_invariant`: the initial state itself is reachable and
satisfies the bounds; `zoom_in` from zoom 1 gives 5/4. -/
theorem zoom_invariant_witness :
    (1/10 ≤ (App.new (fun _ => none) [] 0).zoom ∧
      (App.new (fun _ => none) [] 0).zoom ≤ 10) ∧
    (App.zoom_in (App.new (fun _ => none) [] 0)).zoom = 5/4 :=
  ⟨zoom_invariant.1 (fun _ => none) [] 0 _ Relation.ReflTransGen.refl,
    zoom_invariant.2.1 _ (App.new_zoom _ _ _)⟩

lemma App.load_current_index (decode : String → Option Image) (a : App) :
    (App.load_current decode a).index = a.index := by
  unfold App.load_current
  dsimp only
  split
  · rfl
  · split <;> rfl

/-- *C7, Navigation wrap-around*: on a non-empty image list of length `n`,
`next` at index `n-1` wraps to 0 and `prev` at index 0 wraps to `n-1`; on an
empty list both are no-ops. -/
theorem navigation_wraparound (decode : String → Option Image) (a : App) :
    (a.images.length = 0 → App.next decode a = a ∧ App.prev decode a = a) ∧
    (0 < a.images.length →
      (a.index = a.images.length - 1 → (App.next decode a).index = 0) ∧
      (a.index = 0 → (App.prev decode a).index = a.images.length - 1)) := by
  constructor
  · intro hlen
    have hemp : a.images.isEmpty = true := by
      cases him : a.images with
      | nil => rfl
      | cons x xs => rw [him] at hlen; simp at hlen
    unfold App.next App.prev
    rw [if_pos hemp, if_pos hemp]
    exact ⟨rfl, rfl⟩
  · intro hlen
    have hemp : ¬ a.images.isEmpty = true := by
      cases him : a.images with
      | nil => rw [him] at hlen; simp at hlen
      | cons x xs => simp
    constructor
    · intro hidx
      unfold App.next
      rw [if_neg hemp, App.load_current_index]
      dsimp only
      have : a.index + 1 = a.images.length := by omega
      rw [this, Nat.mod_self]
    · intro hidx
      unfold App.prev
      rw [if_neg hemp, App.load_current_index]
      dsimp only
      rw [if_pos hidx]

/-- Witness for `navigation_wraparound`: a two-image list, `next` from
index 1 and `prev` from index 0. -/
theorem navigation_wraparound_witness :
    (App.next (fun _ => none) ⟨["a", "b"], 1, none, none, false, 1, 0, 0⟩).index = 0 ∧
    (App.prev (fun _ => none) ⟨["a", "b"], 0, none, none, false, 1, 0, 0⟩).index = 1 :=
  ⟨((navigation_wraparound (fun _ => none)
      ⟨["a", "b"], 1, none, none, false, 1, 0, 0⟩).2 (by norm_num)).1 rfl,
    ((navigation_wraparound (fun _ => none)
      ⟨["a", "b"], 0, none, none, false, 1, 0, 0⟩).2 (by norm_num)).2 rfl⟩

/-- Exactly one of `current_image` and `error_message` is `Some`. -/
def imageXorError (a : App) : Prop :=
  a.current_image.isSome = !a.error_message.isSome

lemma App.load_current_xor (decode : String → Option Image) (a : App) :
    imageXorError (App.load_current decode a) := by
  unfold App.load_current imageXorError
  dsimp only
  split
  · rfl
  · split <;> rfl

lemma Step.preserves_xor {decode : String → Option Image} {a b : App}
    (hs : Step decode a b) (h : imageXorError a) : imageXorError b := by
  cases hs with
  | next =>
    unfold App.next
    split
    · exact h
    · exact App.load_current_xor _ _
  | prev =>
    unfold App.prev
    split
    · exact h
    · exact App.load_current_xor _ _
  | first =>
    unfold App.first
    split
    · exact h
    · exact App.load_current_xor _ _
  | last =>
    unfold App.last
    split
    · exact h
    · exact App.load_current_xor _ _
  | zoom_in => exact h
  | zoom_out => exact h
  | zoom_reset => exact h
  | pan dx dy => exact h
  | toggle_help => exact h

/-- *C10, Image/error exclusivity*: in every reachable `App` state exactly
one of `current_image` and `error_message` is `Some`; a decode success sets
the image and clears the error, a decode failure or an empty collection
clears the image and sets the error, and the zoom/pan/help transitions
touch neither field. -/
theorem image_error_exclusive :
    (∀ (decode : String → Option Image) (images : List String) (start : ℕ)
      (a : App), Reachable decode (App.new decode images start) a →
      imageXorError a) ∧
    (∀ (decode : String → Option Image) (a : App) (img : Image),
      a.images.isEmpty = false →
      decode (a.images.getD a.index "") = some img →
      (App.load_current decode a).current_image = some img ∧
      (App.load_current decode a).error_message = none) ∧
    (∀ (decode : String → Option Image) (a : App),
      a.images.isEmpty = false →
      decode (a.images.getD a.index "") = none →
      (App.load_current decode a).current_image = none ∧
      (App.load_current decode a).error_message.isSome = true) ∧
    (∀ (decode : String → Option Image) (a : App),
      a.images.isEmpty = true →
      (App.load_current decode a).current_image = none ∧
      (App.load_current decode a).error_message.isSome = true) ∧
    (∀ (a : App) (dx dy : ℚ),
      (App.zoom_in a).current_image = a.current_image ∧
      (App.zoom_in a).error_message = a.error_message ∧
      (App.zoom_out a).current_image = a.current_image ∧
      (App.zoom_out a).error_message = a.error_message ∧
      (App.zoom_reset a).current_image = a.current_image ∧
      (App.zoom_reset a).error_message = a.error_message ∧
      (App.pan dx dy a).current_image = a.current_image ∧
      (App.pan dx dy a).error_message = a.error_message ∧
      (App.toggle_help a).current_image = a.current_image ∧
      (App.toggle_help a).error_message = a.error_message) := by
  refine ⟨?_, ?_, ?_, ?_, ?_⟩
  · intro decode images start a h
    induction h with
    | refl => exact App.load_current_xor decode _
    | tail _hsteps hstep ih => exact hstep.preserves_xor ih
  · intro decode a img hne hdec
    unfold App.load_current
    dsimp only
    rw [if_neg (by rw [hne]; simp), hdec]
    exact ⟨rfl, rfl⟩
  · intro decode a hne hdec
    unfold App.load_current
    dsimp only
    rw [if_neg (by rw [hne]; simp), hdec]
    exact ⟨rfl, rfl⟩
  · intro decode a hemp
    unfold App.load_current
    dsimp only
    rw [if_pos hemp]
    exact ⟨rfl, rfl⟩
  · intro a dx dy
    exact ⟨rfl, rfl, rfl, rfl, rfl, rfl, rfl, rfl, rfl, rfl⟩

/-- Witness for `image_error_exclusive`: the freshly constructed state on an
empty list, a successful decode, and a failed decode. -/
theorem image_error_exclusive_witness :
    imageXorError (App.new (fun _ => none) [] 0) ∧
    ((App.load_current (fun _ => some ⟨4, 3⟩)
        ⟨["x"], 0, none, none, false, 1, 0, 0⟩).current_image = some ⟨4, 3⟩ ∧
      (App.load_current (fun _ => some ⟨4, 3⟩)
        ⟨["x"], 0, none, none, false, 1, 0, 0⟩).error_message = none) ∧
    ((App.load_current (fun _ => none)
        ⟨["x"], 0, none, none, false, 1, 0, 0⟩).current_image = none ∧
      (App.load_current (fun _ => none)
        ⟨["x"], 0, none, none, false, 1, 0, 0⟩).error_message.isSome = true) :=
  ⟨image_error_exclusive.1 (fun _ => none) [] 0 _ Relation.ReflTransGen.refl,
    image_error_exclusive.2.1 (fun _ => some ⟨4, 3⟩)
      ⟨["x"], 0, none, none, false, 1, 0, 0⟩ ⟨4, 3⟩ rfl rfl,
    image_error_exclusive.2.2.1 (fun _ => none)
      ⟨["x"], 0, none, none, false, 1, 0, 0⟩ rfl rfl⟩

/-! ## Half-block renderer (spec §4.3)

The source under `src/` contains only the kitty pixel path; the half-block
fallback renderer the spec describes is not in the code.  The definitions
below are therefore modelled from the spec's §4.3 wording. -/

/-- A source image for the half-block renderer: dimensions and a pixel
lookup (pixel values abstract). -/
structure HImage where
  w : ℕ
  h : ℕ
  pix : ℕ → ℕ → ℕ

/-- A half-block cell color: a sampled source pixel, or the fixed neutral
"outside image" background fill. -/
inductive HBColor where
  | color (v : ℕ)
  | fill
  deriving Repr, DecidableEq

/-- One output cell of the half-block renderer: a top-half-block glyph with
foreground/background colors, or a blank unstyled cell. -/
inductive HBCell where
  | blank
  | glyph (fg bg : HBColor)
  deriving Repr, DecidableEq

/-- Modelled from the spec: `render_halfblock` is absent from `src/`; spec
§4.3 prescribes the target pixel canvas `width_cells × height_cells*2` and
the uniform scale `min(canvas_w/img_w, canvas_h/img_h)` (no upscale cap). -/
def hb_scale (img : HImage) (widthCells heightCells : ℕ) : ℚ :=
  min ((widthCells : ℚ) / img.w) (((2 * heightCells : ℕ) : ℚ) / img.h)

/-- Modelled from the spec: the resampled width — "resample to fit,
clamped to the canvas", at least one pixel. -/
def hb_new_w (img : HImage) (widthCells heightCells : ℕ) : ℕ :=
  min widthCells (max (rustCastU32 ((img.w : ℚ) * hb_scale img widthCells heightCells)) 1)

/-- Modelled from the spec: the resampled height, clamped to the canvas. -/
def hb_new_h (img : HImage) (widthCells heightCells : ℕ) : ℕ :=
  min (2 * heightCells)
    (max (rustCastU32 ((img.h : ℚ) * hb_scale img widthCells heightCells)) 1)

/-- Modelled from the spec: the horizontal centering offset, in pixels. -/
def hb_off_x (img : HImage) (widthCells heightCells : ℕ) : ℕ :=
  (widthCells - hb_new_w img widthCells heightCells) / 2

/-- Modelled from the spec: the vertical centering offset, in pixel space
(respecting the 2-pixels-per-row packing). -/
def hb_off_y (img : HImage) (widthCells heightCells : ℕ) : ℕ :=
  (2 * heightCells - hb_new_h img widthCells heightCells) / 2

/-- Modelled from the spec: nearest-neighbour resampling — the source index
that resampled coordinate `p` (of `newTotal`) samples from (of
`srcTotal`). -/
def hb_src (p srcTotal newTotal : ℕ) : ℕ := p * srcTotal / newTotal

/-- Modelled from the spec: the output cell at row `r`, column `c` — top
pixel = canvas row `2r`, bottom = canvas row `2r+1`; four cases by which of
the two lie inside the resampled image, with foreground = top pixel,
background = bottom pixel and the neutral fill outside. -/
def render_halfblock (img : HImage) (widthCells heightCells r c : ℕ) : HBCell :=
  if hb_off_x img widthCells heightCells ≤ c ∧
      c < hb_off_x img widthCells heightCells + hb_new_w img widthCells heightCells then
    let sx := hb_src (c - hb_off_x img widthCells heightCells) img.w
      (hb_new_w img widthCells heightCells)
    let topC := HBColor.color (img.pix sx
      (hb_src (2 * r - hb_off_y img widthCells heightCells) img.h
        (hb_new_h img widthCells heightCells)))
    let botC := HBColor.color (img.pix sx
      (hb_src (2 * r + 1 - hb_off_y img widthCells heightCells) img.h
        (hb_new_h img widthCells heightCells)))
    if hb_off_y img widthCells heightCells ≤ 2 * r ∧
        2 * r < hb_off_y img widthCells heightCells + hb_new_h img widthCells heightCells then
      if 2 * r + 1 < hb_off_y img widthCells heightCells + hb_new_h img widthCells heightCells then
        HBCell.glyph topC botC
      else
        HBCell.glyph topC HBColor.fill
    else if hb_off_y img widthCells heightCells ≤ 2 * r + 1 ∧
        2 * r + 1 < hb_off_y img widthCells heightCells + hb_new_h img widthCells heightCells then
      HBCell.glyph HBColor.fill botC
    else
      HBCell.blank
  else
    HBCell.blank

/-- Modelled from the spec: the source rows output row `r` samples — those
of the two canvas pixel rows `2r`, `2r+1` that fall inside the resampled
image. -/
def hb_sampledRows (img : HImage) (widthCells heightCells r : ℕ) : List ℕ :=
  [2 * r, 2 * r + 1].filterMap (fun py =>
    if hb_off_y img widthCells heightCells ≤ py ∧
        py < hb_off_y img widthCells heightCells + hb_new_h img widthCells heightCells then
      some (hb_src (py - hb_off_y img widthCells heightCells) img.h
        (hb_new_h img widthCells heightCells))
    else none)

lemma rustCastU32_natCast (n : ℕ) : rustCastU32 (n : ℚ) = n := by
  unfold rustCastU32
  simp

lemma hb_scale_eq_one (img : HImage) (wc m : ℕ) (hw : 1 ≤ img.w) (hm : 1 ≤ m)
    (heven : img.h = 2 * m) (hwc : img.w ≤ wc) : hb_scale img wc m = 1 := by
  unfold hb_scale
  rw [heven]
  have h2m : (((2 * m : ℕ) : ℚ)) ≠ 0 := by
    have : (0 : ℕ) < 2 * m := by omega
    exact_mod_cast this.ne'
  rw [div_self h2m]
  refine min_eq_right ?_
  rw [le_div_iff₀ (by exact_mod_cast Nat.lt_of_lt_of_le Nat.zero_lt_one hw)]
  rw [one_mul]
  exact_mod_cast hwc

lemma hb_new_w_full (img : HImage) (wc m : ℕ) (hw : 1 ≤ img.w) (hm : 1 ≤ m)
    (heven : img.h = 2 * m) (hwc : img.w ≤ wc) : hb_new_w img wc m = img.w := by
  unfold hb_new_w
  rw [hb_scale_eq_one img wc m hw hm heven hwc, mul_one, rustCastU32_natCast,
    max_eq_left hw]
  exact min_eq_right hwc

lemma hb_new_h_full (img : HImage) (wc m : ℕ) (hw : 1 ≤ img.w) (hm : 1 ≤ m)
    (heven : img.h = 2 * m) (hwc : img.w ≤ wc) : hb_new_h img wc m = 2 * m := by
  unfold hb_new_h
  rw [hb_scale_eq_one img wc m hw hm heven hwc, mul_one, rustCastU32_natCast,
    heven, max_eq_left (by omega), min_self]

lemma hb_off_y_zero (img : HImage) (wc m : ℕ) (hw : 1 ≤ img.w) (hm : 1 ≤ m)
    (heven : img.h = 2 * m) (hwc : img.w ≤ wc) : hb_off_y img wc m = 0 := by
  unfold hb_off_y
  rw [hb_new_h_full img wc m hw hm heven hwc, Nat.sub_self, Nat.zero_div]

lemma hb_src_self (p total : ℕ) (ht : 0 < total) : hb_src p total total = p := by
  unfold hb_src
  exact Nat.mul_div_cancel p ht

lemma hb_sampledRows_full (img : HImage) (wc m : ℕ) (hw : 1 ≤ img.w) (hm : 1 ≤ m)
    (heven : img.h = 2 * m) (hwc : img.w ≤ wc) (r : ℕ) (hr : r < m) :
    hb_sampledRows img wc m r = [2 * r, 2 * r + 1] := by
  unfold hb_sampledRows
  simp only [hb_off_y_zero img wc m hw hm heven hwc,
    hb_new_h_full img wc m hw hm heven hwc, heven, List.filterMap_cons,
    List.filterMap_nil]
  rw [if_pos ⟨Nat.zero_le _, by omega⟩, if_pos ⟨Nat.zero_le _, by omega⟩]
  rw [Nat.sub_zero, Nat.sub_zero, hb_src_self _ _ (by omega),
    hb_src_self _ _ (by omega)]

lemma range_map_doubles (m : ℕ) :
    ((List.range m).map (fun r => [2 * r, 2 * r + 1])).join = List.range (2 * m) := by
  induction m with
  | zero => rfl
  | succ m ih =>
    rw [List.range_succ, List.map_append]
    rw [show 2 * (m + 1) = 2 * m + 1 + 1 by ring, List.range_succ, List.range_succ]
    simp [ih, List.append_assoc]

/-- *C9 refutation of the unconditional claim*: on a 4×4 image rendered
into 1 column × 2 rows (`height_cells = H/2 = 2`), the uniform scale is
1/4, the resampled image is 1 pixel tall, and source row 1 is never
sampled — so "every source row is sampled exactly once" fails without a
width hypothesis. -/
theorem halfblock_row_packing_counterexample :
    ((List.range 2).map (hb_sampledRows ⟨4, 4, fun _ _ => 0⟩ 1 2)).join.count 1 = 0 := by
  have hs : hb_scale ⟨4, 4, fun _ _ => 0⟩ 1 2 = 1/4 := by
    unfold hb_scale
    norm_num [min_def]
  have hnh : hb_new_h ⟨4, 4, fun _ _ => 0⟩ 1 2 = 1 := by
    unfold hb_new_h rustCastU32
    rw [hs]
    norm_num
  have hoy : hb_off_y ⟨4, 4, fun _ _ => 0⟩ 1 2 = 1 := by
    unfold hb_off_y
    rw [hnh]
  rw [show List.range 2 = [0, 1] by rfl]
  simp only [List.map_cons, List.map_nil]
  unfold hb_sampledRows
  rw [hoy, hnh]
  decide

/-- *C9 as amended*: for every image with positive width, even pixel height
`H = 2m ≥ 2`, and a cell width of at least the image width (so the uniform
scale is 1), `render_halfblock` with `height_cells = H/2` yields, in each
image column of each output row `r`, a glyph whose foreground is source
pixel row `2r` and whose background is source pixel row `2r+1`; and every
source row is sampled exactly once. -/
theorem halfblock_row_packing (img : HImage) (m : ℕ) (wc : ℕ)
    (hw : 1 ≤ img.w) (hm : 1 ≤ m) (heven : img.h = 2 * m) (hwc : img.w ≤ wc) :
    (∀ r, r < m → ∀ c, hb_off_x img wc m ≤ c → c < hb_off_x img wc m + img.w →
      render_halfblock img wc m r c =
        HBCell.glyph (HBColor.color (img.pix (c - hb_off_x img wc m) (2 * r)))
          (HBColor.color (img.pix (c - hb_off_x img wc m) (2 * r + 1)))) ∧
    (∀ y, y < img.h →
      ((List.range m).map (hb_sampledRows img wc m)).join.count y = 1) := by
  constructor
  · intro r hr c hc1 hc2
    unfold render_halfblock
    rw [hb_new_w_full img wc m hw hm heven hwc,
      hb_new_h_full img wc m hw hm heven hwc,
      hb_off_y_zero img wc m hw hm heven hwc]
    rw [if_pos ⟨hc1, hc2⟩, if_pos ⟨Nat.zero_le _, by omega⟩, if_pos (by omega)]
    rw [Nat.sub_zero, Nat.sub_zero, heven, hb_src_self (2 * r) (2 * m) (by omega),
      hb_src_self (2 * r + 1) (2 * m) (by omega),
      hb_src_self (c - hb_off_x img wc m) img.w (by omega)]
  · intro y hy
    rw [List.map_congr_left (fun r hrm =>
      hb_sampledRows_full img wc m hw hm heven hwc r (List.mem_range.mp hrm))]
    rw [range_map_doubles]
    exact List.count_eq_one_of_mem (List.nodup_range _)
      (List.mem_range.mpr (by omega))

/-- Witness for `halfblock_row_packing`: a 2×2 image in a 2-column,
1-row-of-cells canvas. -/
theorem halfblock_row_packing_witness :
    render_halfblock ⟨2, 2, fun _ _ => 0⟩ 2 1 0 0 =
      HBCell.glyph (HBColor.color 0) (HBColor.color 0) ∧
    ((List.range 1).map (hb_sampledRows ⟨2, 2, fun _ _ => 0⟩ 2 1)).join.count 0 = 1 := by
  have hoffx : hb_off_x ⟨2, 2, fun _ _ => 0⟩ 2 1 = 0 := by
    unfold hb_off_x
    rw [hb_new_w_full ⟨2, 2, fun _ _ => 0⟩ 2 1 (by norm_num) (by norm_num) rfl
      (by norm_num)]
    decide
  constructor
  · have h := (halfblock_row_packing ⟨2, 2, fun _ _ => 0⟩ 1 2 (by norm_num)
      (by norm_num) rfl (by norm_num)).1 0 (by norm_num) 0 (by rw [hoffx])
      (by rw [hoffx]; norm_num)
    simpa using h
  · exact (halfblock_row_packing ⟨2, 2, fun _ _ => 0⟩ 1 2 (by norm_num)
      (by norm_num) rfl (by norm_num)).2 0 (by norm_num)

end Termview
